import Mathlib

/-!
Shallow embedding of the Symbol Classification & Hotspot Aggregation Engine
of `src/census.ts` (repo-feature-check).  JavaScript strings are modelled as
`List Char`; the insertion-ordered JS `Map` is modelled as an association
list keyed on the report `id` field; `undefined`-able numeric fields are
modelled as `Option`; the floating-point hotspot formula is modelled over
the reals.  External collaborators (ctags invocation, git queries, the
filesystem, `path.relative`) are passed in as explicit function parameters.
-/

namespace Census

/-- Character-list model of a JavaScript string. -/
abbrev Str := List Char

def isUpperAZ (c : Char) : Bool := decide ('A' ≤ c) && decide (c ≤ 'Z')

def isLowerAZ (c : Char) : Bool := decide ('a' ≤ c) && decide (c ≤ 'z')

def isDigit09 (c : Char) : Bool := decide ('0' ≤ c) && decide (c ≤ '9')

def isAlnumAZ (c : Char) : Bool := isUpperAZ c || isLowerAZ c || isDigit09 c

/-- Membership in the JavaScript whitespace class (the regex `\s` and
`String.prototype.trim`). -/
def isJsWS (c : Char) : Bool :=
  let n := c.toNat
  n = 9 || n = 10 || n = 11 || n = 12 || n = 13 || n = 32 || n = 160 ||
  n = 5760 || (8192 ≤ n && n ≤ 8202) || n = 8232 || n = 8233 ||
  n = 8239 || n = 8287 || n = 12288 || n = 65279

def isPrefixL : Str → Str → Bool
  | [], _ => true
  | _ :: _, [] => false
  | a :: as, b :: bs => decide (a = b) && isPrefixL as bs

/-- Substring containment: the semantics of JavaScript
`String.prototype.includes` (the empty needle is contained in every
string). -/
def hasSub (hay needle : Str) : Bool :=
  match hay with
  | [] => isPrefixL needle []
  | c :: t => isPrefixL needle (c :: t) || hasSub t needle

def endsWithL (s suffixL : Str) : Bool := isPrefixL suffixL.reverse s.reverse

def countNl (s : Str) : Nat := s.count '\n'

def trimWS (s : Str) : Str := ((s.dropWhile isJsWS).reverse.dropWhile isJsWS).reverse

-- ─── Data model ──────────────────────────────────────────────────────────────

/-- `CtagsEntry` of census.ts: one raw structural entry. -/
structure CtagsEntry where
  name : Str
  path : Str
  line : Nat
  kind : Str
  scope : Option Str
  scopeKind : Option Str
  pattern : Option Str
deriving DecidableEq

/-- The three canonical symbol kinds (`Symbol['kind']` in census.ts). -/
inductive SymKind
  | func
  | meth
  | cls
deriving DecidableEq

/-- `Symbol` of census.ts: a canonical symbol. -/
structure Symbol where
  name : Str
  kind : SymKind
  file : Str
  line : Nat
  scope : Option Str
  signature : Option Str
  feature : Str
  featureName : Str
deriving DecidableEq

/-- `FeatureRule` of census.ts. -/
structure FeatureRule where
  id : Str
  name : Str
  category : Str
  paths : List Str
deriving DecidableEq

/-- An element of a report's `topFiles` list. -/
structure TopFile where
  path : Str
  commits : Nat
  churn : Nat
deriving DecidableEq

/-- `FeatureReport` of census.ts.  `commits`, `churn`, `hotspotScore` and
`topFiles` are `undefined` until the churn overlay touches them, hence
`Option`. -/
structure FeatureReport where
  id : Str
  name : Str
  category : Str
  functions : Nat
  methods : Nat
  classes : Nat
  total : Nat
  commits : Option Nat
  churn : Option Nat
  hotspotScore : Option Int
  topFiles : Option (List TopFile)
deriving DecidableEq

/-- `FileChurn` of census.ts: one per-file churn record. -/
structure FileChurn where
  path : Str
  commits : Nat
  additions : Nat
  deletions : Nat
  churn : Nat
deriving DecidableEq

-- ─── Entry normalizer (filterSymbols first pass, census.ts lines 163-213) ───

def NOISE_NAMES : List Str :=
  ["<lambda>".data, "<anonymous>".data, "anonymous".data, "module.exports".data]

def FUNCTION_KINDS : List Str := ["function".data, "generator".data]

def METHOD_KINDS : List Str := ["method".data]

def CLASS_KINDS : List Str := ["class".data, "object".data]

/-- The regex `^[A-Z][a-zA-Z0-9]+$`. -/
def isPascalCase (s : Str) : Bool :=
  match s with
  | [] => false
  | c :: rest => isUpperAZ c && !rest.isEmpty && rest.all isAlnumAZ

/-- The regex `^use[A-Z]` (unanchored at the end). -/
def isHookName (s : Str) : Bool :=
  match s with
  | 'u' :: 's' :: 'e' :: c :: _ => isUpperAZ c
  | _ => false

/-- The regex `^[a-z][a-zA-Z0-9]+$`. -/
def isCamelCase (s : Str) : Bool :=
  match s with
  | [] => false
  | c :: rest => isLowerAZ c && !rest.isEmpty && rest.all isAlnumAZ

def startsWithUU (s : Str) : Bool :=
  match s with
  | '_' :: '_' :: _ => true
  | _ => false

/-- The keep/drop and kind-normalization decision of the first pass of
`filterSymbols`: `none` means the entry is dropped. -/
def entryKind? (e : CtagsEntry) : Option SymKind :=
  if NOISE_NAMES.contains e.name then none
  else if startsWithUU e.name then none
  else if FUNCTION_KINDS.contains e.kind then some .func
  else if METHOD_KINDS.contains e.kind then some .meth
  else if CLASS_KINDS.contains e.kind then some .cls
  else if e.kind = "constant".data then
    if isPascalCase e.name || isHookName e.name then some .func
    else if endsWithL e.path (".tsx".data) && isCamelCase e.name then some .func
    else none
  else none

/-- `entry.pattern?.replace(/^\/\^/, '').replace(/\$\/$/, '').trim()`. -/
def cleanSig (p : Str) : Str :=
  let p1 := if isPrefixL ("/^".data) p then p.drop 2 else p
  let p2 := if endsWithL p1 ("$/".data) then p1.take (p1.length - 2) else p1
  trimWS p2

/-- First pass of `filterSymbols`; `relativize` stands for
`path.relative(repoRoot, ·)`. -/
def firstPass (relativize : Str → Str) (entries : List CtagsEntry) : List Symbol :=
  entries.filterMap (fun e =>
    match entryKind? e with
    | none => none
    | some k =>
      some { name := e.name, kind := k, file := relativize e.path, line := e.line,
             scope := e.scope, signature := e.pattern.map cleanSig,
             feature := [], featureName := [] })

-- ─── Orphan scanner (filterSymbols second pass, census.ts lines 215-248) ────

/-- Strip an exact literal prefix, or fail. -/
def stripL : Str → Str → Option Str
  | [], s => some s
  | _ :: _, [] => none
  | a :: as, b :: bs => if a = b then stripL as bs else none

/-- Consume the regex `\s+` (one or more whitespace characters, greedily). -/
def wsRun1 (s : Str) : Option Str :=
  match s with
  | c :: t => if isJsWS c then some (t.dropWhile isJsWS) else none
  | [] => none

/-- Try the regex `export\s+(?:default\s+)?(?:const|function)\s+([A-Z][a-zA-Z0-9]*)`
at the start of `s`; on success return the captured name and the remainder of
the string after the whole match. -/
def tryMatch (s : Str) : Option (Str × Str) :=
  match stripL ("export".data) s with
  | none => none
  | some s1 =>
    match wsRun1 s1 with
    | none => none
    | some s2 =>
      let s3 := match stripL ("default".data) s2 with
        | some sd =>
          match wsRun1 sd with
          | some sd2 => sd2
          | none => s2
        | none => s2
      let s4? := match stripL ("const".data) s3 with
        | some sc => some sc
        | none => stripL ("function".data) s3
      match s4? with
      | none => none
      | some s4 =>
        match wsRun1 s4 with
        | none => none
        | some s5 =>
          match s5 with
          | c :: rest =>
            if isUpperAZ c then some (c :: rest.takeWhile isAlnumAZ, rest.dropWhile isAlnumAZ)
            else none
          | [] => none

/-- Fuel-indexed driver of the `exec` loop; the fuel strictly exceeds the
remaining string length throughout (see `scanAux_congr`), so the zero-fuel
branch is never taken from `scanFile`. -/
def scanAux : Nat → Str → Nat → List (Nat × Nat × Str)
  | 0, _, _ => []
  | _ + 1, [], _ => []
  | fuel + 1, c :: t, i =>
    match tryMatch (c :: t) with
    | some (n, rest) =>
      let len := (c :: t).length - rest.length
      (i, len, n) :: scanAux fuel rest (i + len)
    | none => scanAux fuel t (i + 1)

/-- All matches of the orphan-recovery regex over a file, as
(match index, match length, captured name) triples, in the order the
`while exec` loop produces them. -/
def scanFile (src : Str) : List (Nat × Nat × Str) := scanAux (src.length + 1) src 0

/-- One synthesized orphan symbol, for a match starting at character offset
`i` of length `len` capturing `n`: function kind, 1-based line number from
the newline count before the match offset, signature from the trimmed match
text. -/
def mkOrphan (relFile src : Str) (i len : Nat) (n : Str) : Symbol :=
  { name := n, kind := .func, file := relFile, line := countNl (src.take i) + 1,
    scope := none, signature := some (trimWS ((src.drop i).take len)),
    feature := [], featureName := [] }

/-- The guard `symbols.some(s => s.file === relFile && s.name === name)`. -/
def hasPair (syms : List Symbol) (f n : Str) : Bool :=
  syms.any (fun s => s.file == f && s.name == n)

/-- The `while exec` loop body of the orphan scanner, folded over the match
list of one file. -/
def orphanGo (relFile src : Str) : List (Nat × Nat × Str) → List Symbol → List Symbol
  | [], syms => syms
  | (i, len, n) :: ms, syms =>
    if hasPair syms relFile n then orphanGo relFile src ms syms
    else orphanGo relFile src ms (syms ++ [mkOrphan relFile src i len n])

/-- Orphan scanning of one file; `readF` stands for `fs.readFileSync`
(`none` models a read failure, which skips the file). -/
def addOrphans (readF : Str → Option Str) (syms : List Symbol) (relFile : Str) : List Symbol :=
  match readF relFile with
  | none => syms
  | some src => orphanGo relFile src (scanFile src) syms

/-- The orphan-scanner loop over all collected component files. -/
def orphanStage (readF : Str → Option Str) (files : List Str) (syms : List Symbol) :
    List Symbol :=
  files.foldl (addOrphans readF) syms

/-- The `tsxFiles` set of census.ts: distinct relativized entry paths with a
`.tsx` or `.jsx` extension, in first-occurrence order. -/
def tsxFilesOf (relativize : Str → Str) (entries : List CtagsEntry) : List Str :=
  entries.foldl (fun acc e =>
    let rel := relativize e.path
    if (endsWithL rel (".tsx".data) || endsWithL rel (".jsx".data)) && !acc.contains rel
    then acc ++ [rel] else acc) []

/-- The function `filterSymbols` of census.ts: the normalizer first pass
followed by the orphan-scanner second pass. -/
def filterSymbols (relativize : Str → Str) (readF : Str → Option Str)
    (entries : List CtagsEntry) : List Symbol :=
  orphanStage readF (tsxFilesOf relativize entries) (firstPass relativize entries)

/-- Concrete component-file source for the orphan-recovery example. -/
def bannerSrc : Str := "export function Banner() x".data

/-- Concrete read function: only the file `c.tsx` exists, holding
`bannerSrc`. -/
def bannerRead : Str → Option Str := fun f => if f = "c.tsx".data then some bannerSrc else none

/-- The orphan symbol the scanner synthesizes from `bannerSrc`. -/
def bannerOrphan : Symbol := mkOrphan ("c.tsx".data) bannerSrc 0 22 ("Banner".data)

/-- A `Banner` symbol as the extractor would have captured it from a
promoted constant. -/
def bannerConst : Symbol :=
  { name := "Banner".data, kind := .func, file := "c.tsx".data, line := 5, scope := none,
    signature := none, feature := [], featureName := [] }

/-- The `{ id, name, category }` triple returned by `classifySymbol`. -/
structure FeatTriple where
  id : Str
  name : Str
  category : Str
deriving DecidableEq

def uncatTriple : FeatTriple :=
  { id := "uncategorized".data, name := "Uncategorized".data, category := "Unknown".data }

def tripleOf (r : FeatureRule) : FeatTriple :=
  { id := r.id, name := r.name, category := r.category }

/-- `'/' + relPath.replace(/\\/g, '/')`. -/
def normalizePath (relPath : Str) : Str :=
  '/' :: relPath.map (fun c => if c = '\\' then '/' else c)

/-- The inner loop of `classifySymbol`: does any of the rule's path
substrings occur in the normalized path? -/
def ruleMatchesB (normalized : Str) (r : FeatureRule) : Bool :=
  r.paths.any (fun p => hasSub normalized p)

def classifyGo (normalized : Str) : List FeatureRule → FeatTriple
  | [] => uncatTriple
  | f :: fs => if ruleMatchesB normalized f then tripleOf f else classifyGo normalized fs

/-- `classifySymbol` of census.ts. -/
def classifySymbol (relPath : Str) (features : List FeatureRule) : FeatTriple :=
  classifyGo (normalizePath relPath) features

/-- Step 3 of `main`: assign `feature`/`featureName` on every symbol. -/
def classifyStage (rules : List FeatureRule) (syms : List Symbol) : List Symbol :=
  syms.map (fun s =>
    let t := classifySymbol s.file rules
    { s with feature := t.id, featureName := t.name })

-- ─── Aggregation (main step 4, census.ts lines 498-523) ─────────────────────

/-- `featureMap.get`, on the insertion-ordered association-list model of the
JS `Map`. -/
def mapGet (id : Str) : List FeatureReport → Option FeatureReport
  | [] => none
  | b :: bs => if b.id = id then some b else mapGet id bs

/-- `featureMap.set`: replace in place if the key exists, else append. -/
def mapSet (id : Str) (v : FeatureReport) : List FeatureReport → List FeatureReport
  | [] => [v]
  | b :: bs => if b.id = id then v :: bs else b :: mapSet id v bs

def emptyReport (id name category : Str) : FeatureReport :=
  { id := id, name := name, category := category,
    functions := 0, methods := 0, classes := 0, total := 0,
    commits := none, churn := none, hotspotScore := none, topFiles := none }

/-- The pre-seeding of `featureMap`: one zero bucket per configured rule id,
then the `uncategorized` sentinel bucket. -/
def seedMap (rules : List FeatureRule) : List FeatureReport :=
  mapSet ("uncategorized".data)
    (emptyReport ("uncategorized".data) ("Uncategorized".data) ("Unknown".data))
    (rules.foldl (fun m r => mapSet r.id (emptyReport r.id r.name r.category) m) [])

/-- The per-symbol counter bump of the aggregation loop. -/
def incKind (k : SymKind) (b : FeatureReport) : FeatureReport :=
  match k with
  | .func => { b with functions := b.functions + 1, total := b.total + 1 }
  | .meth => { b with methods := b.methods + 1, total := b.total + 1 }
  | .cls => { b with classes := b.classes + 1, total := b.total + 1 }

/-- One iteration of the aggregation loop: fetch the symbol's bucket,
creating an `Unknown`-category bucket on demand, and bump its counters. -/
def aggStep (m : List FeatureReport) (s : Symbol) : List FeatureReport :=
  match mapGet s.feature m with
  | none => mapSet s.feature (incKind s.kind (emptyReport s.feature s.featureName ("Unknown".data))) m
  | some b => mapSet s.feature (incKind s.kind b) m

/-- The aggregation loop over all symbols. -/
def aggregate (m : List FeatureReport) (syms : List Symbol) : List FeatureReport :=
  syms.foldl aggStep m

-- ─── Churn overlay & hotspot scoring (main step 5, census.ts 526-551) ───────

/-- One iteration of the churn-overlay loop: classify the record's file,
fetch the bucket, silently skipping when it is missing, and accumulate
commits, churn and the top-files candidate. -/
def overlayStep (rules : List FeatureRule) (m : List FeatureReport) (fc : FileChurn) :
    List FeatureReport :=
  let t := classifySymbol fc.path rules
  match mapGet t.id m with
  | none => m
  | some b =>
    mapSet t.id
      { b with commits := some (b.commits.getD 0 + fc.commits),
               churn := some (b.churn.getD 0 + fc.churn),
               topFiles := some ((b.topFiles.getD []) ++ [⟨fc.path, fc.commits, fc.churn⟩]) } m

def overlayChurn (rules : List FeatureRule) (churnData : List FileChurn)
    (m : List FeatureReport) : List FeatureReport :=
  churnData.foldl (overlayStep rules) m

/-- Stable insertion into a list sorted by a JS comparator (`c x y ≤ 0`
places `x` no later than `y`). -/
def insertByCmp {α : Type} (c : α → α → Int) (x : α) : List α → List α
  | [] => [x]
  | y :: ys => if c x y ≤ 0 then x :: y :: ys else y :: insertByCmp c x ys

/-- Stable sort by a JS comparator, modelling `Array.prototype.sort` (for an
inconsistent comparator the JS result order is implementation-defined; this
is one conforming stable order). -/
def sortByCmp {α : Type} (c : α → α → Int) : List α → List α
  | [] => []
  | x :: xs => insertByCmp c x (sortByCmp c xs)

/-- `Math.round` over the real model of JS doubles. -/
noncomputable def jsRound (x : ℝ) : ℤ := ⌊x + 1 / 2⌋

/-- The per-bucket body of the score/trim loop: set
`hotspotScore = Math.round(churn * Math.sqrt(commits))` when both `churn`
and `commits` are truthy, then sort the top-files candidates by churn
descending and keep the first 10. -/
noncomputable def scoreOne (r : FeatureReport) : FeatureReport :=
  let c := r.churn.getD 0
  let k := r.commits.getD 0
  let r1 :=
    if c ≠ 0 ∧ k ≠ 0 then
      { r with hotspotScore := some (jsRound ((c : ℝ) * Real.sqrt (k : ℝ))) }
    else r
  match r1.topFiles with
  | some tf =>
    { r1 with topFiles := some ((sortByCmp (fun a b => (b.churn : ℤ) - (a.churn : ℤ)) tf).take 10) }
  | none => r1

noncomputable def scoreStage (m : List FeatureReport) : List FeatureReport :=
  m.map scoreOne

/-- The whole optional `--since` stage: churn overlay followed by hotspot
scoring and top-files trimming. -/
noncomputable def churnStage (rules : List FeatureRule) (churnData : List FileChurn)
    (m : List FeatureReport) : List FeatureReport :=
  scoreStage (overlayChurn rules churnData m)

-- ─── Coverage & ranking (main, census.ts lines 553-569) ─────────────────────

/-- The filter `f.total > 0 || (f.churn && f.churn > 0)` (an undefined or
zero churn is falsy). -/
def keepPred (r : FeatureReport) : Bool :=
  decide (0 < r.total) ||
    (match r.churn with
     | some c => decide (0 < c)
     | none => false)

/-- The ranking comparator: hotspot score descending when a churn window was
supplied and both sides carry a score, total descending otherwise. -/
def rankCmp (hasSince : Bool) (a b : FeatureReport) : Int :=
  match hasSince, a.hotspotScore, b.hotspotScore with
  | true, some x, some y => y - x
  | _, _, _ => (b.total : ℤ) - (a.total : ℤ)

/-- The `sorted` list of `main`: filter, then sort by `rankCmp`. -/
def rank (hasSince : Bool) (m : List FeatureReport) : List FeatureReport :=
  sortByCmp (rankCmp hasSince) (m.filter keepPred)

/-- A JS number: a finite value (idealized as a rational), `NaN`, or a
signed infinity. -/
inductive JsNumber
  | num (q : ℚ)
  | nan
  | posInf
  | negInf
deriving DecidableEq

/-- JS division of finite numbers, including the zero-denominator cases. -/
def jsDiv (a b : ℚ) : JsNumber :=
  if b = 0 then
    if a = 0 then .nan else if 0 < a then .posInf else .negInf
  else .num (a / b)

def jsSub (a b : JsNumber) : JsNumber :=
  match a, b with
  | .num x, .num y => .num (x - y)
  | .nan, _ => .nan
  | _, .nan => .nan
  | .num _, .posInf => .negInf
  | .num _, .negInf => .posInf
  | .posInf, .num _ => .posInf
  | .posInf, .negInf => .posInf
  | .negInf, .num _ => .negInf
  | .negInf, .posInf => .negInf
  | .posInf, .posInf => .nan
  | .negInf, .negInf => .nan

def jsMul (a b : JsNumber) : JsNumber :=
  match a, b with
  | .num x, .num y => .num (x * y)
  | .nan, _ => .nan
  | _, .nan => .nan
  | .posInf, .num x => if x = 0 then .nan else if 0 < x then .posInf else .negInf
  | .num x, .posInf => if x = 0 then .nan else if 0 < x then .posInf else .negInf
  | .negInf, .num x => if x = 0 then .nan else if 0 < x then .negInf else .posInf
  | .num x, .negInf => if x = 0 then .nan else if 0 < x then .negInf else .posInf
  | .posInf, .posInf => .posInf
  | .negInf, .negInf => .posInf
  | .posInf, .negInf => .negInf
  | .negInf, .posInf => .negInf

/-- The expression `(1 - uncatCount / totalSymbols) * 100` of census.ts
line 569, over the JS number model. -/
def coveragePct (uncat total : Nat) : JsNumber :=
  jsMul (jsSub (.num 1) (jsDiv (uncat : ℚ) (total : ℚ))) (.num 100)

-- ─── Derived observation functions ──────────────────────────────────────────

/-- Sum of the three kind counters of one bucket. -/
def fmc (b : FeatureReport) : Nat := b.functions + b.methods + b.classes

/-- Sum of the kind counters over all buckets. -/
def sumFMC (m : List FeatureReport) : Nat := (m.map fmc).sum

/-- Sum of the `total` counters over all buckets. -/
def sumTotal (m : List FeatureReport) : Nat := (m.map FeatureReport.total).sum

/-- The four counters of the bucket with a given id ((0,0,0,0) when the
bucket is absent). -/
def bucketCounts (m : List FeatureReport) (id : Str) : Nat × Nat × Nat × Nat :=
  match mapGet id m with
  | some b => (b.functions, b.methods, b.classes, b.total)
  | none => (0, 0, 0, 0)

/-- Number of symbols with the given feature id and kind. -/
def kindCount (id : Str) (k : SymKind) (syms : List Symbol) : Nat :=
  (syms.filter (fun s => s.feature == id && s.kind == k)).length

/-- Number of symbols with the given feature id. -/
def featCount (id : Str) (syms : List Symbol) : Nat :=
  (syms.filter (fun s => s.feature == id)).length

/-- The (file, name) pairs of a symbol list. -/
def pairsOf (syms : List Symbol) : List (Str × Str) := syms.map (fun s => (s.file, s.name))

-- ─── Scanner match-length lemmas ─────────────────────────────────────────────

lemma stripL_length {pre s t : Str} (h : stripL pre s = some t) :
    t.length + pre.length = s.length := by
  induction pre generalizing s with
  | nil => cases h; simp
  | cons a as ih =>
    cases s with
    | nil => simp [stripL] at h
    | cons b bs =>
      simp only [stripL] at h
      split at h
      · have := ih h
        simp only [List.length_cons]
        omega
      · exact absurd h (by simp)

lemma dropWhile_length_le (p : Char → Bool) (s : Str) :
    (s.dropWhile p).length ≤ s.length := by
  induction s with
  | nil => simp [List.dropWhile]
  | cons c t ih =>
    simp only [List.dropWhile]
    split
    · simp only [List.length_cons]; omega
    · simp

lemma wsRun1_length {s t : Str} (h : wsRun1 s = some t) : t.length < s.length := by
  cases s with
  | nil => simp [wsRun1] at h
  | cons c r =>
    simp only [wsRun1] at h
    split at h
    · cases h
      have := dropWhile_length_le isJsWS r
      simp only [List.length_cons]
      omega
    · exact absurd h (by simp)

lemma tryMatch_length {s : Str} {n rest : Str} (h : tryMatch s = some (n, rest)) :
    rest.length < s.length := by
  unfold tryMatch at h
  cases h1 : stripL ("export".data) s with
  | none => rw [h1] at h; exact absurd h (by simp)
  | some s1 =>
    rw [h1] at h
    simp only at h
    cases h2 : wsRun1 s1 with
    | none => rw [h2] at h; exact absurd h (by simp)
    | some s2 =>
      rw [h2] at h
      simp only at h
      have hs2 : s2.length < s.length := by
        have ha := stripL_length h1
        have hb := wsRun1_length h2
        omega
      set s3 := (match stripL ("default".data) s2 with
          | some sd =>
            match wsRun1 sd with
            | some sd2 => sd2
            | none => s2
          | none => s2) with hs3def
      have hs3 : s3.length ≤ s2.length := by
        rw [hs3def]
        cases hd : stripL ("default".data) s2 with
        | none => simp only [le_refl]
        | some sd =>
          simp only
          cases hw : wsRun1 sd with
          | none => simp only [le_refl]
          | some sd2 =>
            simp only
            have ha := stripL_length hd
            have hb := wsRun1_length hw
            omega
      cases h4 : (match stripL ("const".data) s3 with
          | some sc => some sc
          | none => stripL ("function".data) s3) with
      | none => rw [h4] at h; exact absurd h (by simp)
      | some s4 =>
        rw [h4] at h
        simp only at h
        have hs4 : s4.length ≤ s3.length := by
          cases hc : stripL ("const".data) s3 with
          | some sc =>
            rw [hc] at h4
            simp only [Option.some.injEq] at h4
            subst h4
            have := stripL_length hc
            omega
          | none =>
            rw [hc] at h4
            simp only at h4
            have := stripL_length h4
            omega
        cases h5 : wsRun1 s4 with
        | none => rw [h5] at h; exact absurd h (by simp)
        | some s5 =>
          rw [h5] at h
          simp only at h
          have hs5 : s5.length < s4.length := wsRun1_length h5
          cases s5 with
          | nil => exact absurd h (by simp)
          | cons c r =>
            simp only at h
            split at h
            · simp only [Option.some.injEq, Prod.mk.injEq] at h
              have hr : rest = r.dropWhile isAlnumAZ := h.2.symm
              subst hr
              have := dropWhile_length_le isAlnumAZ r
              simp only [List.length_cons] at hs5
              omega
            · exact absurd h (by simp)

lemma scanAux_congr : ∀ (f1 f2 : Nat) (s : Str) (i : Nat),
    s.length < f1 → s.length < f2 → scanAux f1 s i = scanAux f2 s i := by
  intro f1
  induction f1 with
  | zero => intro f2 s i h1 _; omega
  | succ a ih =>
    intro f2 s i h1 h2
    cases f2 with
    | zero => omega
    | succ b =>
      cases s with
      | nil => simp [scanAux]
      | cons c t =>
        simp only [scanAux]
        cases hm : tryMatch (c :: t) with
        | some p =>
          obtain ⟨n, rest⟩ := p
          simp only
          have hlt := tryMatch_length hm
          simp only [List.length_cons] at h1 h2 hlt
          rw [ih b rest _ (by omega) (by omega)]
        | none =>
          simp only [List.length_cons] at h1 h2
          exact ih b t _ (by omega) (by omega)

-- ─── Classifier lemmas ───────────────────────────────────────────────────────

lemma classifyGo_of_none {np : Str} {rules : List FeatureRule}
    (h : ∀ r ∈ rules, ruleMatchesB np r = false) : classifyGo np rules = uncatTriple := by
  induction rules with
  | nil => rfl
  | cons f fs ih =>
    simp only [classifyGo]
    rw [h f (List.mem_cons_self f fs)]
    simp only [Bool.false_eq_true, if_false]
    exact ih (fun r hr => h r (List.mem_cons_of_mem f hr))

lemma classifyGo_first {np : Str} {pre : List FeatureRule} {r : FeatureRule}
    {post : List FeatureRule} (hpre : ∀ r' ∈ pre, ruleMatchesB np r' = false)
    (hr : ruleMatchesB np r = true) : classifyGo np (pre ++ r :: post) = tripleOf r := by
  induction pre with
  | nil => simp [classifyGo, hr]
  | cons a pre' ih =>
    simp only [List.cons_append, classifyGo]
    rw [hpre a (List.mem_cons_self a pre')]
    simp only [Bool.false_eq_true, if_false]
    exact ih (fun r' hr' => hpre r' (List.mem_cons_of_mem a hr'))

lemma hasSub_nil (hay : Str) : hasSub hay [] = true := by
  cases hay <;> simp [hasSub, isPrefixL]

lemma ruleMatchesB_of_nil_path {np : Str} {r : FeatureRule} (h : ([] : Str) ∈ r.paths) :
    ruleMatchesB np r = true := by
  simp only [ruleMatchesB, List.any_eq_true]
  exact ⟨[], h, hasSub_nil np⟩

lemma classifyGo_mem_or_uncat (np : Str) (rules : List FeatureRule) :
    (classifyGo np rules).id ∈ rules.map FeatureRule.id ∨
      (classifyGo np rules).id = "uncategorized".data := by
  induction rules with
  | nil => right; rfl
  | cons f fs ih =>
    simp only [classifyGo]
    by_cases h : ruleMatchesB np f = true
    · rw [h]
      simp [tripleOf]
    · rw [eq_false_of_ne_true h]
      simp only [Bool.false_eq_true, if_false, List.map_cons]
      rcases ih with hm | hu
      · exact Or.inl (List.mem_cons_of_mem _ hm)
      · exact Or.inr hu

-- ─── Claim theorems: classifier ──────────────────────────────────────────────

/-- C2: the feature classifier is a pure, total function of (path, rule
list): it returns the `uncategorized`/`Unknown` sentinel when no rule's
substring occurs in the normalized path; it returns the first rule with a
matching substring; and with two overlapping rules the earlier-declared
rule's triple is returned. -/
theorem claim_C2_classifier_first_match_wins :
    (∀ (p : Str) (rules : List FeatureRule),
      (∀ r ∈ rules, ruleMatchesB (normalizePath p) r = false) →
      classifySymbol p rules = uncatTriple)
    ∧ (∀ (p : Str) (pre : List FeatureRule) (r : FeatureRule) (post : List FeatureRule),
      (∀ r' ∈ pre, ruleMatchesB (normalizePath p) r' = false) →
      ruleMatchesB (normalizePath p) r = true →
      classifySymbol p (pre ++ r :: post) = tripleOf r)
    ∧ (∀ (p : Str) (r1 r2 : FeatureRule),
      ruleMatchesB (normalizePath p) r1 = true →
      ruleMatchesB (normalizePath p) r2 = true →
      classifySymbol p [r1, r2] = tripleOf r1) := by
  refine ⟨?_, ?_, ?_⟩
  · intro p rules h
    exact classifyGo_of_none h
  · intro p pre r post hpre hr
    exact classifyGo_first hpre hr
  · intro p r1 r2 h1 _
    have h2 : classifySymbol p ([] ++ r1 :: [r2]) = tripleOf r1 := classifyGo_first (by simp) h1
    simpa using h2

/-- Witness for C2 at a concrete overlap: the rules for `/api/` and `api`
both match `src/api/u.ts`, and the earlier rule is returned. -/
theorem claim_C2_witness :
    classifySymbol ("src/api/u.ts".data)
        [⟨"api1".data, "A1".data, "C1".data, [("/api/".data)]⟩,
         ⟨"api2".data, "A2".data, "C2".data, [("api".data)]⟩] =
      tripleOf ⟨"api1".data, "A1".data, "C1".data, [("/api/".data)]⟩ :=
  claim_C2_classifier_first_match_wins.2.2 ("src/api/u.ts".data)
    ⟨"api1".data, "A1".data, "C1".data, [("/api/".data)]⟩
    ⟨"api2".data, "A2".data, "C2".data, [("api".data)]⟩
    (by decide) (by decide)

/-- C10 counterexample: the claim "for every input path, classification
returns the first empty-string rule's id" is false: with an earlier rule
matching the path, that earlier rule's id is returned instead. -/
theorem claim_C10_counterexample :
    ¬ (∀ (p : Str) (pre : List FeatureRule) (r : FeatureRule) (post : List FeatureRule),
        ([] : Str) ∈ r.paths → (∀ r' ∈ pre, ([] : Str) ∉ r'.paths) →
        (classifySymbol p (pre ++ r :: post)).id = r.id) := by
  intro h
  have := h ("x".data) [⟨"a".data, "A".data, "C".data, [("x".data)]⟩]
    ⟨"b".data, "B".data, "C".data, [[]]⟩ [] (by decide) (by decide)
  exact absurd this (by decide)

/-- C10 (amended): a rule whose paths contain the empty string matches
every path; classification then always returns the triple of some rule at
or before the first such rule — the first such rule itself when no earlier
rule matches — so the `uncategorized` default branch is unreachable. -/
theorem claim_C10_empty_path_rule_matches_all :
    (∀ (p : Str) (r : FeatureRule), ([] : Str) ∈ r.paths →
      ruleMatchesB (normalizePath p) r = true)
    ∧ (∀ (p : Str) (pre : List FeatureRule) (r : FeatureRule) (post : List FeatureRule),
      ([] : Str) ∈ r.paths →
      ∃ r' ∈ pre ++ [r], classifySymbol p (pre ++ r :: post) = tripleOf r')
    ∧ (∀ (p : Str) (pre : List FeatureRule) (r : FeatureRule) (post : List FeatureRule),
      ([] : Str) ∈ r.paths →
      (∀ r' ∈ pre, ruleMatchesB (normalizePath p) r' = false) →
      classifySymbol p (pre ++ r :: post) = tripleOf r) := by
  refine ⟨?_, ?_, ?_⟩
  · intro p r h
    exact ruleMatchesB_of_nil_path h
  · intro p pre r post h
    induction pre with
    | nil =>
      refine ⟨r, by simp, ?_⟩
      show classifyGo (normalizePath p) (r :: post) = tripleOf r
      simp [classifyGo, ruleMatchesB_of_nil_path h]
    | cons a pre' ih =>
      by_cases ha : ruleMatchesB (normalizePath p) a = true
      · refine ⟨a, by simp, ?_⟩
        show classifyGo (normalizePath p) (a :: (pre' ++ r :: post)) = tripleOf a
        simp [classifyGo, ha]
      · obtain ⟨r', hr'mem, hr'eq⟩ := ih
        refine ⟨r', ?_, ?_⟩
        · rcases List.mem_append.mp hr'mem with hm | hm
          · exact List.mem_append.mpr (Or.inl (List.mem_cons_of_mem a hm))
          · exact List.mem_append.mpr (Or.inr hm)
        · show classifyGo (normalizePath p) (a :: (pre' ++ r :: post)) = tripleOf r'
          simp only [classifyGo]
          rw [eq_false_of_ne_true ha]
          simpa using hr'eq
  · intro p pre r post h hpre
    exact classifyGo_first hpre (ruleMatchesB_of_nil_path h)

/-- Witness for the amended C10: a config whose second rule has an empty
path substring; a path matching no earlier rule is classified to it. -/
theorem claim_C10_witness :
    classifySymbol ("y".data)
        [⟨"a".data, "A".data, "C".data, [("x".data)]⟩,
         ⟨"b".data, "B".data, "C".data, [[]]⟩] =
      tripleOf ⟨"b".data, "B".data, "C".data, [[]]⟩ :=
  claim_C10_empty_path_rule_matches_all.2.2 ("y".data)
    [⟨"a".data, "A".data, "C".data, [("x".data)]⟩]
    ⟨"b".data, "B".data, "C".data, [[]]⟩ [] (by decide) (by decide)

/-- C4: with zero symbols after filtering, the coverage expression
`(1 - uncatCount / totalSymbols) * 100` evaluates `0 / 0` and yields `NaN`;
the degenerate case is not handled explicitly, and the invalid value
propagates into the report's coverage rate. -/
theorem claim_C4_coverage_zero_symbols_nan : coveragePct 0 0 = JsNumber.nan := by
  decide

-- ─── Aggregation lemmas ──────────────────────────────────────────────────────

lemma fmc_incKind (k : SymKind) (b : FeatureReport) : fmc (incKind k b) = fmc b + 1 := by
  cases k <;> simp [incKind, fmc] <;> omega

lemma total_incKind (k : SymKind) (b : FeatureReport) : (incKind k b).total = b.total + 1 := by
  cases k <;> simp [incKind]

lemma id_incKind (k : SymKind) (b : FeatureReport) : (incKind k b).id = b.id := by
  cases k <;> simp [incKind]

lemma hotspot_incKind (k : SymKind) (b : FeatureReport) :
    (incKind k b).hotspotScore = b.hotspotScore := by
  cases k <;> simp [incKind]

lemma mem_mapSet {x v : FeatureReport} {id : Str} {m : List FeatureReport}
    (h : x ∈ mapSet id v m) : x = v ∨ x ∈ m := by
  induction m with
  | nil => simpa [mapSet] using h
  | cons b bs ih =>
    simp only [mapSet] at h
    split at h
    · rcases List.mem_cons.mp h with h1 | h1
      · exact Or.inl h1
      · exact Or.inr (List.mem_cons_of_mem b h1)
    · rcases List.mem_cons.mp h with h1 | h1
      · exact Or.inr (h1 ▸ List.mem_cons_self b bs)
      · rcases ih h1 with h2 | h2
        · exact Or.inl h2
        · exact Or.inr (List.mem_cons_of_mem b h2)

lemma mapGet_mem {id : Str} {m : List FeatureReport} {b : FeatureReport}
    (h : mapGet id m = some b) : b ∈ m := by
  induction m with
  | nil => simp [mapGet] at h
  | cons x xs ih =>
    simp only [mapGet] at h
    split at h
    · cases h; exact List.mem_cons_self _ _
    · exact List.mem_cons_of_mem x (ih h)

lemma mapGet_id_eq {id : Str} {m : List FeatureReport} {b : FeatureReport}
    (h : mapGet id m = some b) : b.id = id := by
  induction m with
  | nil => simp [mapGet] at h
  | cons x xs ih =>
    simp only [mapGet] at h
    split at h
    · cases h; assumption
    · exact ih h

lemma mapSet_of_get_none {id : Str} {v : FeatureReport} {m : List FeatureReport}
    (h : mapGet id m = none) : mapSet id v m = m ++ [v] := by
  induction m with
  | nil => rfl
  | cons b bs ih =>
    simp only [mapGet] at h
    split at h
    · exact absurd h (by simp)
    · simp only [mapSet]
      rw [if_neg (by assumption)]
      rw [ih h]
      simp

lemma mapGet_mapSet_self {id : Str} {v : FeatureReport} {m : List FeatureReport}
    (hv : v.id = id) : mapGet id (mapSet id v m) = some v := by
  induction m with
  | nil => simp [mapSet, mapGet, hv]
  | cons b bs ih =>
    simp only [mapSet]
    split
    · simp [mapGet, hv]
    · simp only [mapGet]
      rw [if_neg (by assumption)]
      exact ih

lemma mapGet_mapSet_ne {id id' : Str} {v : FeatureReport} {m : List FeatureReport}
    (hv : v.id = id) (hne : id' ≠ id) : mapGet id' (mapSet id v m) = mapGet id' m := by
  induction m with
  | nil =>
    simp only [mapSet, mapGet]
    rw [if_neg (by rw [hv]; exact fun hh => hne hh.symm)]
  | cons b bs ih =>
    simp only [mapSet]
    split
    · rename_i hb
      simp only [mapGet]
      rw [if_neg (by rw [hv]; exact fun h => hne h.symm), if_neg (by rw [hb]; exact fun h => hne h.symm)]
    · simp only [mapGet]
      split
      · rfl
      · exact ih

lemma sumFMC_append (m : List FeatureReport) (v : FeatureReport) :
    sumFMC (m ++ [v]) = sumFMC m + fmc v := by
  simp [sumFMC]

lemma sumTotal_append (m : List FeatureReport) (v : FeatureReport) :
    sumTotal (m ++ [v]) = sumTotal m + v.total := by
  simp [sumTotal]

lemma sumFMC_mapSet_found {id : Str} {m : List FeatureReport} {b : FeatureReport}
    (v : FeatureReport) (h : mapGet id m = some b) :
    sumFMC (mapSet id v m) + fmc b = sumFMC m + fmc v := by
  induction m with
  | nil => simp [mapGet] at h
  | cons x xs ih =>
    simp only [mapGet] at h
    simp only [mapSet]
    split at h
    · cases h
      rw [if_pos (by assumption)]
      simp only [sumFMC, List.map_cons, List.sum_cons]
      omega
    · rw [if_neg (by assumption)]
      simp only [sumFMC, List.map_cons, List.sum_cons] at ih ⊢
      have := ih h
      omega

lemma sumTotal_mapSet_found {id : Str} {m : List FeatureReport} {b : FeatureReport}
    (v : FeatureReport) (h : mapGet id m = some b) :
    sumTotal (mapSet id v m) + b.total = sumTotal m + v.total := by
  induction m with
  | nil => simp [mapGet] at h
  | cons x xs ih =>
    simp only [mapGet] at h
    simp only [mapSet]
    split at h
    · cases h
      rw [if_pos (by assumption)]
      simp only [sumTotal, List.map_cons, List.sum_cons]
      omega
    · rw [if_neg (by assumption)]
      simp only [sumTotal, List.map_cons, List.sum_cons] at ih ⊢
      have := ih h
      omega

lemma aggStep_sumFMC (m : List FeatureReport) (s : Symbol) :
    sumFMC (aggStep m s) = sumFMC m + 1 := by
  cases h : mapGet s.feature m with
  | none =>
    simp only [aggStep, h]
    rw [mapSet_of_get_none h, sumFMC_append, fmc_incKind]
    simp [fmc, emptyReport]
  | some b =>
    simp only [aggStep, h]
    have := sumFMC_mapSet_found (incKind s.kind b) h
    rw [fmc_incKind] at this
    omega

lemma aggStep_sumTotal (m : List FeatureReport) (s : Symbol) :
    sumTotal (aggStep m s) = sumTotal m + 1 := by
  cases h : mapGet s.feature m with
  | none =>
    simp only [aggStep, h]
    rw [mapSet_of_get_none h, sumTotal_append, total_incKind]
    simp [emptyReport]
  | some b =>
    simp only [aggStep, h]
    have := sumTotal_mapSet_found (incKind s.kind b) h
    rw [total_incKind] at this
    omega

lemma aggregate_sumFMC : ∀ (syms : List Symbol) (m : List FeatureReport),
    sumFMC (aggregate m syms) = sumFMC m + syms.length := by
  intro syms
  induction syms with
  | nil => intro m; simp [aggregate]
  | cons s ss ih =>
    intro m
    show sumFMC (aggregate (aggStep m s) ss) = _
    rw [ih, aggStep_sumFMC]
    simp only [List.length_cons]
    omega

lemma aggregate_sumTotal : ∀ (syms : List Symbol) (m : List FeatureReport),
    sumTotal (aggregate m syms) = sumTotal m + syms.length := by
  intro syms
  induction syms with
  | nil => intro m; simp [aggregate]
  | cons s ss ih =>
    intro m
    show sumTotal (aggregate (aggStep m s) ss) = _
    rw [ih, aggStep_sumTotal]
    simp only [List.length_cons]
    omega

lemma aggStep_total_inv {m : List FeatureReport} (s : Symbol)
    (h : ∀ x ∈ m, x.total = fmc x) : ∀ x ∈ aggStep m s, x.total = fmc x := by
  intro x hx
  unfold aggStep at hx
  cases hg : mapGet s.feature m with
  | none =>
    rw [hg] at hx
    rcases mem_mapSet hx with h1 | h1
    · subst h1
      cases s.kind <;> simp [incKind, emptyReport, fmc]
    · exact h x h1
  | some b =>
    rw [hg] at hx
    rcases mem_mapSet hx with h1 | h1
    · subst h1
      rw [total_incKind, fmc_incKind, h b (mapGet_mem hg)]
    · exact h x h1

lemma aggregate_total_inv : ∀ (syms : List Symbol) (m : List FeatureReport),
    (∀ x ∈ m, x.total = fmc x) → ∀ x ∈ aggregate m syms, x.total = fmc x := by
  intro syms
  induction syms with
  | nil => intro m h; exact h
  | cons s ss ih =>
    intro m h
    exact ih (aggStep m s) (aggStep_total_inv s h)

lemma seedMap_zero (rules : List FeatureRule) :
    ∀ x ∈ seedMap rules, x.total = 0 ∧ fmc x = 0 ∧ x.hotspotScore = none := by
  have base : ∀ (rs : List FeatureRule) (acc : List FeatureReport),
      (∀ x ∈ acc, x.total = 0 ∧ fmc x = 0 ∧ x.hotspotScore = none) →
      ∀ x ∈ rs.foldl (fun m r => mapSet r.id (emptyReport r.id r.name r.category) m) acc,
        x.total = 0 ∧ fmc x = 0 ∧ x.hotspotScore = none := by
    intro rs
    induction rs with
    | nil => intro acc h; exact h
    | cons r rs' ih =>
      intro acc h
      refine ih _ (fun x hx => ?_)
      rcases mem_mapSet hx with h1 | h1
      · subst h1; simp [emptyReport, fmc]
      · exact h x h1
  intro x hx
  unfold seedMap at hx
  rcases mem_mapSet hx with h1 | h1
  · subst h1; simp [emptyReport, fmc]
  · exact base rules [] (by simp) x h1

lemma sum_eq_zero_of_all_zero {m : List FeatureReport}
    (hf : ∀ x ∈ m, fmc x = 0) (ht : ∀ x ∈ m, x.total = 0) :
    sumFMC m = 0 ∧ sumTotal m = 0 := by
  induction m with
  | nil => simp [sumFMC, sumTotal]
  | cons b bs ih =>
    have h1 := hf b (List.mem_cons_self b bs)
    have h2 := ht b (List.mem_cons_self b bs)
    have := ih (fun x hx => hf x (List.mem_cons_of_mem b hx))
      (fun x hx => ht x (List.mem_cons_of_mem b hx))
    simp only [sumFMC, sumTotal, List.map_cons, List.sum_cons] at *
    omega

-- ─── Claim theorems: aggregation ─────────────────────────────────────────────

/-- C1: after aggregation over any symbol list and rule configuration, every
bucket satisfies `total = functions + methods + classes`, and both the sum
of kind counters and the sum of totals over all buckets equal the number of
symbols — each symbol increments exactly one bucket. -/
theorem claim_C1_aggregation_conservation (rules : List FeatureRule) (syms : List Symbol) :
    (∀ b ∈ aggregate (seedMap rules) syms, b.total = b.functions + b.methods + b.classes)
    ∧ sumFMC (aggregate (seedMap rules) syms) = syms.length
    ∧ sumTotal (aggregate (seedMap rules) syms) = syms.length := by
  have hz := seedMap_zero rules
  have hsum := sum_eq_zero_of_all_zero (fun x hx => (hz x hx).2.1) (fun x hx => (hz x hx).1)
  refine ⟨?_, ?_, ?_⟩
  · intro b hb
    exact aggregate_total_inv syms (seedMap rules) (fun x hx => by rw [(hz x hx).1, (hz x hx).2.1]) b hb
  · rw [aggregate_sumFMC, hsum.1]
    omega
  · rw [aggregate_sumTotal, hsum.2]
    omega

/-- Witness for C1 at a concrete run: two symbols, one matching the
configured rule, one uncategorized. -/
theorem claim_C1_witness :
    sumFMC (aggregate (seedMap [⟨"a".data, "A".data, "C".data, [("/a/".data)]⟩])
        [{ name := "f".data, kind := .func, file := "x".data, line := 1, scope := none,
           signature := none, feature := "a".data, featureName := "A".data },
         { name := "K".data, kind := .cls, file := "y".data, line := 2, scope := none,
           signature := none, feature := "uncategorized".data, featureName := "Uncategorized".data }]) = 2
    ∧ (∀ b ∈ aggregate (seedMap [⟨"a".data, "A".data, "C".data, [("/a/".data)]⟩])
        [{ name := "f".data, kind := .func, file := "x".data, line := 1, scope := none,
           signature := none, feature := "a".data, featureName := "A".data },
         { name := "K".data, kind := .cls, file := "y".data, line := 2, scope := none,
           signature := none, feature := "uncategorized".data, featureName := "Uncategorized".data }],
        b.total = b.functions + b.methods + b.classes) :=
  ⟨(claim_C1_aggregation_conservation _ _).2.1,
   (claim_C1_aggregation_conservation _ _).1⟩

-- ─── Per-bucket counter characterization ─────────────────────────────────────

lemma bucketCounts_aggStep (m : List FeatureReport) (s : Symbol) (id : Str) :
    bucketCounts (aggStep m s) id =
      if s.feature = id then
        match s.kind with
        | .func => ((bucketCounts m id).1 + 1, (bucketCounts m id).2.1,
            (bucketCounts m id).2.2.1, (bucketCounts m id).2.2.2 + 1)
        | .meth => ((bucketCounts m id).1, (bucketCounts m id).2.1 + 1,
            (bucketCounts m id).2.2.1, (bucketCounts m id).2.2.2 + 1)
        | .cls => ((bucketCounts m id).1, (bucketCounts m id).2.1,
            (bucketCounts m id).2.2.1 + 1, (bucketCounts m id).2.2.2 + 1)
      else bucketCounts m id := by
  by_cases hf : s.feature = id
  · subst hf
    rw [if_pos rfl]
    cases hg : mapGet s.feature m with
    | none =>
      simp only [aggStep, hg]
      have hv : (incKind s.kind (emptyReport s.feature s.featureName ("Unknown".data))).id
          = s.feature := by
        rw [id_incKind]; rfl
      simp only [bucketCounts, hg, mapGet_mapSet_self hv]
      cases s.kind <;> simp [incKind, emptyReport]
    | some b =>
      simp only [aggStep, hg]
      have hv : (incKind s.kind b).id = s.feature := by
        rw [id_incKind]; exact mapGet_id_eq hg
      simp only [bucketCounts, hg, mapGet_mapSet_self hv]
      cases s.kind <;> simp [incKind]
  · rw [if_neg hf]
    have hne : id ≠ s.feature := fun h2 => hf h2.symm
    cases hg : mapGet s.feature m with
    | none =>
      simp only [aggStep, hg]
      have hv : (incKind s.kind (emptyReport s.feature s.featureName ("Unknown".data))).id
          = s.feature := by
        rw [id_incKind]; rfl
      simp only [bucketCounts, mapGet_mapSet_ne hv hne]
    | some b =>
      simp only [aggStep, hg]
      have hv : (incKind s.kind b).id = s.feature := by
        rw [id_incKind]; exact mapGet_id_eq hg
      simp only [bucketCounts, mapGet_mapSet_ne hv hne]

lemma bucketCounts_aggregate : ∀ (syms : List Symbol) (m : List FeatureReport) (id : Str),
    bucketCounts (aggregate m syms) id =
      ((bucketCounts m id).1 + kindCount id .func syms,
       (bucketCounts m id).2.1 + kindCount id .meth syms,
       (bucketCounts m id).2.2.1 + kindCount id .cls syms,
       (bucketCounts m id).2.2.2 + featCount id syms) := by
  intro syms
  induction syms with
  | nil =>
    intro m id
    simp [aggregate, kindCount, featCount]
  | cons s ss ih =>
    intro m id
    show bucketCounts (aggregate (aggStep m s) ss) id = _
    rw [ih, bucketCounts_aggStep]
    have hkc : ∀ k, kindCount id k (s :: ss) =
        kindCount id k ss + (if s.feature = id ∧ s.kind = k then 1 else 0) := by
      intro k
      simp only [kindCount, List.filter_cons]
      by_cases h1 : s.feature = id ∧ s.kind = k
      · rw [if_pos (by simp [h1.1, h1.2]), if_pos h1]
        simp [List.length_cons]
      · rw [if_neg h1, if_neg (by
          intro hc
          simp only [Bool.and_eq_true, beq_iff_eq] at hc
          exact h1 ⟨hc.1, hc.2⟩)]
        simp
    have hfc : featCount id (s :: ss) =
        featCount id ss + (if s.feature = id then 1 else 0) := by
      simp only [featCount, List.filter_cons]
      by_cases h1 : s.feature = id
      · rw [if_pos (by simp [h1]), if_pos h1]
        simp [List.length_cons]
      · rw [if_neg h1, if_neg (by simp [h1])]
        simp
    rw [hkc .func, hkc .meth, hkc .cls, hfc]
    by_cases hf : s.feature = id
    · rw [if_pos hf]
      cases hk : s.kind <;>
        simp only [hf, hk, true_and] <;>
        refine Prod.ext ?_ (Prod.ext ?_ (Prod.ext ?_ ?_)) <;>
        simp <;> omega
    · rw [if_neg hf]
      have : ∀ k, ¬ (s.feature = id ∧ s.kind = k) := fun k hc => hf hc.1
      rw [if_neg (this .func), if_neg (this .meth), if_neg (this .cls), if_neg hf]
      simp

lemma mapGet_isSome_aggStep (m : List FeatureReport) (s : Symbol) (id : Str) :
    (mapGet id (aggStep m s)).isSome =
      ((mapGet id m).isSome || (s.feature == id)) := by
  by_cases hf : s.feature = id
  · subst hf
    cases hg : mapGet s.feature m with
    | none =>
      simp only [aggStep, hg]
      have hv : (incKind s.kind (emptyReport s.feature s.featureName ("Unknown".data))).id
          = s.feature := by
        rw [id_incKind]; rfl
      simp [mapGet_mapSet_self hv]
    | some b =>
      simp only [aggStep, hg]
      have hv : (incKind s.kind b).id = s.feature := by
        rw [id_incKind]; exact mapGet_id_eq hg
      simp [mapGet_mapSet_self hv, hg]
  · have hne : id ≠ s.feature := fun h2 => hf h2.symm
    cases hg : mapGet s.feature m with
    | none =>
      simp only [aggStep, hg]
      have hv : (incKind s.kind (emptyReport s.feature s.featureName ("Unknown".data))).id
          = s.feature := by
        rw [id_incKind]; rfl
      rw [mapGet_mapSet_ne hv hne]
      simp [beq_eq_false_iff_ne.mpr hf]
    | some b =>
      simp only [aggStep, hg]
      have hv : (incKind s.kind b).id = s.feature := by
        rw [id_incKind]; exact mapGet_id_eq hg
      rw [mapGet_mapSet_ne hv hne]
      simp [beq_eq_false_iff_ne.mpr hf]

lemma mapGet_isSome_aggregate : ∀ (syms : List Symbol) (m : List FeatureReport) (id : Str),
    (mapGet id (aggregate m syms)).isSome =
      ((mapGet id m).isSome || syms.any (fun s => s.feature == id)) := by
  intro syms
  induction syms with
  | nil => intro m id; simp [aggregate]
  | cons s ss ih =>
    intro m id
    show (mapGet id (aggregate (aggStep m s) ss)).isSome = _
    rw [ih, mapGet_isSome_aggStep]
    simp only [List.any_cons]
    cases h1 : (mapGet id m).isSome <;> cases h2 : s.feature == id <;>
      cases h3 : ss.any (fun s => s.feature == id) <;> rfl

-- ─── Claim theorems: order independence and overlay safety ───────────────────

/-- C8: aggregation is order independent — for any permutation of the
classified symbol list, every feature id ends with identical per-bucket
counters (functions, methods, classes, total), and the same buckets
exist. -/
theorem claim_C8_aggregation_order_independent (rules : List FeatureRule)
    (syms syms' : List Symbol) (hperm : syms.Perm syms') (id : Str) :
    bucketCounts (aggregate (seedMap rules) syms) id =
      bucketCounts (aggregate (seedMap rules) syms') id
    ∧ (mapGet id (aggregate (seedMap rules) syms)).isSome =
      (mapGet id (aggregate (seedMap rules) syms')).isSome := by
  constructor
  · rw [bucketCounts_aggregate, bucketCounts_aggregate]
    have hk : ∀ k, kindCount id k syms = kindCount id k syms' := by
      intro k
      exact (hperm.filter _).length_eq
    have hf : featCount id syms = featCount id syms' :=
      (hperm.filter _).length_eq
    rw [hk .func, hk .meth, hk .cls, hf]
  · rw [mapGet_isSome_aggregate, mapGet_isSome_aggregate]
    have : syms.any (fun s => s.feature == id) = syms'.any (fun s => s.feature == id) := by
      cases h1 : syms.any (fun s => s.feature == id) with
      | true =>
        obtain ⟨x, hx, hpx⟩ := List.any_eq_true.mp h1
        exact (List.any_eq_true.mpr ⟨x, hperm.mem_iff.mp hx, hpx⟩).symm
      | false =>
        cases h2 : syms'.any (fun s => s.feature == id) with
        | true =>
          obtain ⟨x, hx, hpx⟩ := List.any_eq_true.mp h2
          rw [← h1]
          exact List.any_eq_true.mpr ⟨x, hperm.mem_iff.mpr hx, hpx⟩
        | false => rfl
    rw [this]

/-- Witness for C8: two concrete symbol lists that are permutations of each
other give the same counters on the configured bucket. -/
theorem claim_C8_witness :
    bucketCounts (aggregate (seedMap [⟨"a".data, "A".data, "C".data, [("/a/".data)]⟩])
        [{ name := "f".data, kind := .func, file := "x".data, line := 1, scope := none,
           signature := none, feature := "a".data, featureName := "A".data },
         { name := "g".data, kind := .meth, file := "y".data, line := 2, scope := none,
           signature := none, feature := "a".data, featureName := "A".data }]) ("a".data) =
      bucketCounts (aggregate (seedMap [⟨"a".data, "A".data, "C".data, [("/a/".data)]⟩])
        [{ name := "g".data, kind := .meth, file := "y".data, line := 2, scope := none,
           signature := none, feature := "a".data, featureName := "A".data },
         { name := "f".data, kind := .func, file := "x".data, line := 1, scope := none,
           signature := none, feature := "a".data, featureName := "A".data }]) ("a".data) :=
  (claim_C8_aggregation_order_independent _ _ _
    (List.isPerm_iff.mp (by decide)) ("a".data)).1

-- ─── Seed and overlay presence lemmas ────────────────────────────────────────

lemma seed_presence (rules : List FeatureRule) (id : Str)
    (h : id ∈ rules.map FeatureRule.id ∨ id = "uncategorized".data) :
    (mapGet id (seedMap rules)).isSome = true := by
  have base : ∀ (rs : List FeatureRule) (acc : List FeatureReport),
      (id ∈ rs.map FeatureRule.id ∨ (mapGet id acc).isSome = true) →
      (mapGet id (rs.foldl (fun m r => mapSet r.id (emptyReport r.id r.name r.category) m) acc)).isSome = true := by
    intro rs
    induction rs with
    | nil =>
      intro acc h2
      rcases h2 with h2 | h2
      · simp at h2
      · exact h2
    | cons r rs' ih =>
      intro acc h2
      refine ih _ ?_
      by_cases hr : id = r.id
      · right
        rw [hr, mapGet_mapSet_self (by rfl)]
        rfl
      · rcases h2 with h2 | h2
        · simp only [List.map_cons, List.mem_cons] at h2
          rcases h2 with h2 | h2
          · exact absurd h2 hr
          · left; exact h2
        · right
          rw [mapGet_mapSet_ne (by rfl) hr]
          exact h2
  unfold seedMap
  by_cases hu : id = "uncategorized".data
  · rw [hu, mapGet_mapSet_self (by rfl)]
    rfl
  · rw [mapGet_mapSet_ne (by rfl) hu]
    rcases h with h | h
    · exact base rules [] (Or.inl h)
    · exact absurd h hu

lemma mapGet_mapSet_isSome_of {key : Str} {v : FeatureReport} {m : List FeatureReport}
    {id : Str} (hv : v.id = key) (h : (mapGet id m).isSome = true) :
    (mapGet id (mapSet key v m)).isSome = true := by
  by_cases hid : id = key
  · rw [hid, mapGet_mapSet_self hv]
    rfl
  · rw [mapGet_mapSet_ne hv hid]
    exact h

lemma overlayStep_presence (rules : List FeatureRule) (m : List FeatureReport)
    (fc : FileChurn) (id : Str) (h : (mapGet id m).isSome = true) :
    (mapGet id (overlayStep rules m fc)).isSome = true := by
  cases hg : mapGet (classifySymbol fc.path rules).id m with
  | none =>
    simp only [overlayStep, hg]
    exact h
  | some b =>
    simp only [overlayStep, hg]
    refine mapGet_mapSet_isSome_of ?_ h
    show b.id = (classifySymbol fc.path rules).id
    exact mapGet_id_eq hg

lemma overlayChurn_presence (rules : List FeatureRule) :
    ∀ (churnData : List FileChurn) (m : List FeatureReport) (id : Str),
    (mapGet id m).isSome = true →
    (mapGet id (overlayChurn rules churnData m)).isSome = true := by
  intro churnData
  induction churnData with
  | nil => intro m id h; exact h
  | cons fc fcs ih =>
    intro m id h
    exact ih _ _ (overlayStep_presence rules m fc id h)

/-- C9: the missing-bucket skip branch of the churn overlay is unreachable —
`classifySymbol` only returns a configured rule id or `uncategorized`, all of
which are pre-seeded, and both aggregation and the overlay itself preserve
bucket presence, so the classified bucket of every churn record exists at
every step of the overlay loop. -/
theorem claim_C9_overlay_skip_unreachable (rules : List FeatureRule)
    (syms : List Symbol) (churnData : List FileChurn) (p : Str) :
    ((classifySymbol p rules).id ∈ rules.map FeatureRule.id ∨
      (classifySymbol p rules).id = "uncategorized".data)
    ∧ (mapGet (classifySymbol p rules).id
        (overlayChurn rules churnData (aggregate (seedMap rules) syms))).isSome = true := by
  have hmem : (classifySymbol p rules).id ∈ rules.map FeatureRule.id ∨
      (classifySymbol p rules).id = "uncategorized".data :=
    classifyGo_mem_or_uncat (normalizePath p) rules
  refine ⟨hmem, ?_⟩
  refine overlayChurn_presence rules churnData _ _ ?_
  rw [mapGet_isSome_aggregate]
  rw [seed_presence rules _ hmem]
  rfl

-- ─── Claim theorems: entry normalizer ────────────────────────────────────────

/-- C5: noise-set names and double-underscore names are dropped regardless
of kind; a `constant` entry that survives the noise checks is kept (as
function kind) exactly when its name is PascalCase or a `use`-hook, or the
file is `.tsx` and the name is camelCase; concretely `__internalHelper` is
always dropped, `MAX_RETRIES` is dropped for every path, and
`useWidgetState` and `UserCard` are kept as function kind for every path. -/
theorem claim_C5_noise_filter_and_constant_promotion :
    (∀ e : CtagsEntry, (NOISE_NAMES.contains e.name || startsWithUU e.name) = true →
      entryKind? e = none)
    ∧ (∀ e : CtagsEntry, e.kind = "constant".data →
      (NOISE_NAMES.contains e.name || startsWithUU e.name) = false →
      ((entryKind? e = some SymKind.func ↔
        (isPascalCase e.name || isHookName e.name ||
          (endsWithL e.path (".tsx".data) && isCamelCase e.name)) = true)
       ∧ (entryKind? e = some SymKind.func ∨ entryKind? e = none)))
    ∧ (∀ (path kind : Str) (line : Nat) (scope scopeKind pat : Option Str),
      entryKind? ⟨"__internalHelper".data, path, line, kind, scope, scopeKind, pat⟩ = none)
    ∧ (∀ (path : Str) (line : Nat) (scope scopeKind pat : Option Str),
      entryKind? ⟨"MAX_RETRIES".data, path, line, "constant".data, scope, scopeKind, pat⟩ = none)
    ∧ (∀ (path : Str) (line : Nat) (scope scopeKind pat : Option Str),
      entryKind? ⟨"useWidgetState".data, path, line, "constant".data, scope, scopeKind, pat⟩ =
        some SymKind.func)
    ∧ (∀ (path : Str) (line : Nat) (scope scopeKind pat : Option Str),
      entryKind? ⟨"UserCard".data, path, line, "constant".data, scope, scopeKind, pat⟩ =
        some SymKind.func) := by
  have hdrop : ∀ e : CtagsEntry, (NOISE_NAMES.contains e.name || startsWithUU e.name) = true →
      entryKind? e = none := by
    intro e h
    rcases Bool.or_eq_true_iff.mp h with h1 | h1
    · unfold entryKind?
      rw [h1]
      simp
    · unfold entryKind?
      rw [h1]
      simp
  refine ⟨hdrop, ?_, ?_, ?_, ?_, ?_⟩
  · intro e hk hn
    have hn1 : NOISE_NAMES.contains e.name = false := by
      cases h : NOISE_NAMES.contains e.name
      · rfl
      · rw [h] at hn; simp at hn
    have hn2 : startsWithUU e.name = false := by
      cases h : startsWithUU e.name
      · rfl
      · rw [h] at hn; simp at hn
    have hf : FUNCTION_KINDS.contains e.kind = false := by rw [hk]; decide
    have hm : METHOD_KINDS.contains e.kind = false := by rw [hk]; decide
    have hc : CLASS_KINDS.contains e.kind = false := by rw [hk]; decide
    unfold entryKind?
    rw [hn1, hn2, hf, hm, hc, if_pos hk]
    simp only [Bool.false_eq_true, if_false]
    constructor
    · by_cases h1 : (isPascalCase e.name || isHookName e.name) = true
      · rw [if_pos h1]
        constructor
        · intro _
          rw [h1]
          simp
        · intro _
          rfl
      · rw [if_neg h1]
        rw [Bool.not_eq_true] at h1
        by_cases h2 : (endsWithL e.path (".tsx".data) && isCamelCase e.name) = true
        · rw [if_pos h2]
          constructor
          · intro _
            rw [h2]
            simp
          · intro _
            rfl
        · rw [if_neg h2]
          rw [Bool.not_eq_true] at h2
          constructor
          · intro hcontra
            simp at hcontra
          · intro hcontra
            rw [h1, h2] at hcontra
            simp at hcontra
    · by_cases h1 : (isPascalCase e.name || isHookName e.name) = true
      · rw [if_pos h1]
        left
        rfl
      · rw [if_neg h1]
        by_cases h2 : (endsWithL e.path (".tsx".data) && isCamelCase e.name) = true
        · rw [if_pos h2]
          left
          rfl
        · rw [if_neg h2]
          right
          rfl
  · intro path kind line scope scopeKind pat
    exact hdrop _ (show (NOISE_NAMES.contains ("__internalHelper".data) ||
      startsWithUU ("__internalHelper".data)) = true by decide)
  · intro path line scope scopeKind pat
    unfold entryKind?
    simp only [show startsWithUU ("MAX_RETRIES".data) = false from rfl,
      show NOISE_NAMES.contains ("MAX_RETRIES".data) = false from rfl,
      show FUNCTION_KINDS.contains ("constant".data) = false from rfl,
      show METHOD_KINDS.contains ("constant".data) = false from rfl,
      show CLASS_KINDS.contains ("constant".data) = false from rfl,
      show isPascalCase ("MAX_RETRIES".data) = false from rfl,
      show isHookName ("MAX_RETRIES".data) = false from rfl,
      show isCamelCase ("MAX_RETRIES".data) = false from rfl]
    simp
  · intro path line scope scopeKind pat
    unfold entryKind?
    simp only [show startsWithUU ("useWidgetState".data) = false from rfl,
      show NOISE_NAMES.contains ("useWidgetState".data) = false from rfl,
      show FUNCTION_KINDS.contains ("constant".data) = false from rfl,
      show METHOD_KINDS.contains ("constant".data) = false from rfl,
      show CLASS_KINDS.contains ("constant".data) = false from rfl,
      show (isPascalCase ("useWidgetState".data) || isHookName ("useWidgetState".data)) = true from rfl]
    simp
  · intro path line scope scopeKind pat
    unfold entryKind?
    simp only [show startsWithUU ("UserCard".data) = false from rfl,
      show NOISE_NAMES.contains ("UserCard".data) = false from rfl,
      show FUNCTION_KINDS.contains ("constant".data) = false from rfl,
      show METHOD_KINDS.contains ("constant".data) = false from rfl,
      show CLASS_KINDS.contains ("constant".data) = false from rfl,
      show (isPascalCase ("UserCard".data) || isHookName ("UserCard".data)) = true from rfl]
    simp

/-- Witness for C5: a camelCase constant in a `.tsx` file is promoted to
function kind, via the iff of the main theorem. -/
theorem claim_C5_witness :
    entryKind? ⟨"withTheme".data, "ui/W.tsx".data, 3, "constant".data, none, none, none⟩ =
      some SymKind.func :=
  ((claim_C5_noise_filter_and_constant_promotion.2.1
      ⟨"withTheme".data, "ui/W.tsx".data, 3, "constant".data, none, none, none⟩
      rfl (by decide)).1).mpr (by decide)

-- ─── Sorting lemmas ──────────────────────────────────────────────────────────

lemma insertByCmp_perm {α : Type} (c : α → α → Int) (x : α) :
    ∀ l : List α, (insertByCmp c x l).Perm (x :: l) := by
  intro l
  induction l with
  | nil => exact List.Perm.refl _
  | cons y ys ih =>
    simp only [insertByCmp]
    split
    · exact List.Perm.refl _
    · exact (ih.cons y).trans (List.Perm.swap x y ys)

lemma sortByCmp_perm {α : Type} (c : α → α → Int) :
    ∀ l : List α, (sortByCmp c l).Perm l := by
  intro l
  induction l with
  | nil => exact List.Perm.refl _
  | cons x xs ih =>
    simp only [sortByCmp]
    exact (insertByCmp_perm c x (sortByCmp c xs)).trans (ih.cons x)

-- ─── Claim theorems: presentation ranking ────────────────────────────────────

/-- C7: the ranking contains exactly the buckets with positive total or
positive churn; comparing two kept buckets, the order is hotspot score
descending when a churn window was supplied and both carry a score, and
total descending in every other case (no window, or at least one side
without a score). -/
theorem claim_C7_ranking_filter_and_order :
    (∀ (hasSince : Bool) (m : List FeatureReport),
      (rank hasSince m).Perm (m.filter keepPred))
    ∧ (∀ (hasSince : Bool) (m : List FeatureReport) (r : FeatureReport),
      r ∈ rank hasSince m ↔ (r ∈ m ∧ keepPred r = true))
    ∧ (∀ (a b : FeatureReport) (x y : Int), keepPred a = true → keepPred b = true →
      a.hotspotScore = some x → b.hotspotScore = some y →
      rank true [a, b] = if y ≤ x then [a, b] else [b, a])
    ∧ (∀ a b : FeatureReport, keepPred a = true → keepPred b = true →
      rank false [a, b] = if b.total ≤ a.total then [a, b] else [b, a])
    ∧ (∀ a b : FeatureReport, keepPred a = true → keepPred b = true →
      (a.hotspotScore = none ∨ b.hotspotScore = none) →
      rank true [a, b] = if b.total ≤ a.total then [a, b] else [b, a]) := by
  have hperm : ∀ (hasSince : Bool) (m : List FeatureReport),
      (rank hasSince m).Perm (m.filter keepPred) := by
    intro hasSince m
    exact sortByCmp_perm _ _
  have hpair : ∀ (hasSince : Bool) (a b : FeatureReport), keepPred a = true →
      keepPred b = true →
      rank hasSince [a, b] = if rankCmp hasSince a b ≤ 0 then [a, b] else [b, a] := by
    intro hasSince a b ha hb
    unfold rank
    rw [show ([a, b].filter keepPred) = [a, b] by simp [List.filter, ha, hb]]
    simp only [sortByCmp, insertByCmp]
  refine ⟨hperm, ?_, ?_, ?_, ?_⟩
  · intro hasSince m r
    rw [(hperm hasSince m).mem_iff, List.mem_filter]
  · intro a b x y ha hb hx hy
    rw [hpair true a b ha hb]
    have : rankCmp true a b = y - x := by
      simp [rankCmp, hx, hy]
    rw [this]
    by_cases hle : y ≤ x
    · rw [if_pos (by omega), if_pos hle]
    · rw [if_neg (by omega), if_neg hle]
  · intro a b ha hb
    rw [hpair false a b ha hb]
    have : rankCmp false a b = (b.total : ℤ) - (a.total : ℤ) := by
      simp [rankCmp]
    rw [this]
    by_cases hle : b.total ≤ a.total
    · rw [if_pos (by omega), if_pos hle]
    · rw [if_neg (by omega), if_neg hle]
  · intro a b ha hb hn
    rw [hpair true a b ha hb]
    have : rankCmp true a b = (b.total : ℤ) - (a.total : ℤ) := by
      rcases hn with hn | hn <;> simp [rankCmp, hn]
    rw [this]
    by_cases hle : b.total ≤ a.total
    · rw [if_pos (by omega), if_pos hle]
    · rw [if_neg (by omega), if_neg hle]

/-- Witness for C7: with a churn window and two scored kept buckets, the
higher hotspot score is ranked first even though its total is smaller. -/
theorem claim_C7_witness :
    rank true
        [{ emptyReport ("a".data) ("A".data) ("C".data) with total := 9, hotspotScore := some 10 },
         { emptyReport ("b".data) ("B".data) ("C".data) with total := 2, hotspotScore := some 50 }] =
      [{ emptyReport ("b".data) ("B".data) ("C".data) with total := 2, hotspotScore := some 50 },
       { emptyReport ("a".data) ("A".data) ("C".data) with total := 9, hotspotScore := some 10 }] := by
  have := claim_C7_ranking_filter_and_order.2.2.1
    { emptyReport ("a".data) ("A".data) ("C".data) with total := 9, hotspotScore := some 10 }
    { emptyReport ("b".data) ("B".data) ("C".data) with total := 2, hotspotScore := some 50 }
    10 50 (by decide) (by decide) rfl rfl
  rw [if_neg (by omega)] at this
  exact this

-- ─── Hotspot scoring lemmas ──────────────────────────────────────────────────

lemma scoreOne_fields (r : FeatureReport) :
    (scoreOne r).churn = r.churn ∧ (scoreOne r).commits = r.commits ∧
    (scoreOne r).hotspotScore =
      (if r.churn.getD 0 ≠ 0 ∧ r.commits.getD 0 ≠ 0 then
        some (jsRound ((r.churn.getD 0 : ℝ) * Real.sqrt (r.commits.getD 0 : ℝ)))
      else r.hotspotScore) := by
  unfold scoreOne
  by_cases h : r.churn.getD 0 ≠ 0 ∧ r.commits.getD 0 ≠ 0
  · simp only [if_pos h]
    cases htf : r.topFiles <;> simp [htf]
  · simp only [if_neg h]
    cases htf : r.topFiles <;> simp [htf]

lemma aggregate_hotspot_none : ∀ (syms : List Symbol) (m : List FeatureReport),
    (∀ x ∈ m, x.hotspotScore = none) →
    ∀ x ∈ aggregate m syms, x.hotspotScore = none := by
  intro syms
  induction syms with
  | nil => intro m h; exact h
  | cons s ss ih =>
    intro m h
    refine ih (aggStep m s) (fun x hx => ?_)
    cases hg : mapGet s.feature m with
    | none =>
      rw [aggStep, hg] at hx
      rcases mem_mapSet hx with h1 | h1
      · subst h1
        rw [hotspot_incKind]
        rfl
      · exact h x h1
    | some b =>
      rw [aggStep, hg] at hx
      rcases mem_mapSet hx with h1 | h1
      · subst h1
        rw [hotspot_incKind]
        exact h b (mapGet_mem hg)
      · exact h x h1

lemma overlay_hotspot_none (rules : List FeatureRule) :
    ∀ (churnData : List FileChurn) (m : List FeatureReport),
    (∀ x ∈ m, x.hotspotScore = none) →
    ∀ x ∈ overlayChurn rules churnData m, x.hotspotScore = none := by
  intro churnData
  induction churnData with
  | nil => intro m h; exact h
  | cons fc fcs ih =>
    intro m h
    refine ih (overlayStep rules m fc) (fun x hx => ?_)
    cases hg : mapGet (classifySymbol fc.path rules).id m with
    | none =>
      simp only [overlayStep, hg] at hx
      exact h x hx
    | some b =>
      simp only [overlayStep, hg] at hx
      rcases mem_mapSet hx with h1 | h1
      · subst h1
        show b.hotspotScore = none
        exact h b (mapGet_mem hg)
      · exact h x h1

lemma sqrt_four : Real.sqrt 4 = 2 := by
  rw [show (4 : ℝ) = 2 ^ 2 by norm_num, Real.sqrt_sq (by norm_num : (0 : ℝ) ≤ 2)]

lemma jsRound_int (z : ℤ) : jsRound (z : ℝ) = z := by
  unfold jsRound
  rw [Int.floor_eq_iff]
  constructor <;> norm_num

-- ─── Claim theorems: hotspot score ───────────────────────────────────────────

/-- C3: after the churn overlay stage a bucket carries a hotspot score iff
its accumulated churn and commit totals are both positive, and the score is
`round(churn * sqrt(commits))`; concretely churn=100, commits=4 scores 200,
churn=50, commits=1 scores 50, and a zero or absent churn or commit total
leaves the score absent. -/
theorem claim_C3_hotspot_score_iff_and_formula :
    (∀ (rules : List FeatureRule) (syms : List Symbol) (churnData : List FileChurn)
      (r : FeatureReport),
      r ∈ churnStage rules churnData (aggregate (seedMap rules) syms) →
      ((r.hotspotScore.isSome = true ↔ (0 < r.churn.getD 0 ∧ 0 < r.commits.getD 0))
       ∧ (∀ (c k : Nat), r.churn = some c → r.commits = some k → 0 < c → 0 < k →
          r.hotspotScore = some (jsRound ((c : ℝ) * Real.sqrt (k : ℝ))))))
    ∧ (∀ r : FeatureReport, r.churn = some 100 → r.commits = some 4 →
      r.hotspotScore = none → (scoreOne r).hotspotScore = some 200)
    ∧ (∀ r : FeatureReport, r.churn = some 50 → r.commits = some 1 →
      r.hotspotScore = none → (scoreOne r).hotspotScore = some 50)
    ∧ (∀ r : FeatureReport,
      (r.churn = some 0 ∨ r.churn = none ∨ r.commits = some 0 ∨ r.commits = none) →
      r.hotspotScore = none → (scoreOne r).hotspotScore = none) := by
  refine ⟨?_, ?_, ?_, ?_⟩
  · intro rules syms churnData r hr
    unfold churnStage scoreStage at hr
    obtain ⟨b, hb, rfl⟩ := List.mem_map.mp hr
    have hnone : b.hotspotScore = none := by
      refine overlay_hotspot_none rules churnData _ ?_ b hb
      refine aggregate_hotspot_none syms (seedMap rules) ?_
      intro x hx
      exact (seedMap_zero rules x hx).2.2
    obtain ⟨hch, hco, hhs⟩ := scoreOne_fields b
    constructor
    · rw [hhs, hch, hco, hnone]
      by_cases h : b.churn.getD 0 ≠ 0 ∧ b.commits.getD 0 ≠ 0
      · rw [if_pos h]
        simp only [Option.isSome_some, true_iff]
        omega
      · rw [if_neg h]
        simp only [Option.isSome_none, Bool.false_eq_true, false_iff]
        omega
    · intro c k hc hk hcpos hkpos
      rw [hch] at hc
      rw [hco] at hk
      rw [hhs, hnone, hc, hk]
      rw [if_pos (by simp [hc, hk] at *; omega)]
      simp [hc, hk]
  · intro r hc hk hn
    obtain ⟨_, _, hhs⟩ := scoreOne_fields r
    rw [hhs, hc, hk, hn]
    rw [if_pos (by simp)]
    rw [show (((some (100 : Nat)).getD 0 : Nat) : ℝ) = 100 by norm_num,
      show (((some (4 : Nat)).getD 0 : Nat) : ℝ) = 4 by norm_num, sqrt_four,
      show (100 : ℝ) * 2 = ((200 : ℤ) : ℝ) by norm_num, jsRound_int 200]
  · intro r hc hk hn
    obtain ⟨_, _, hhs⟩ := scoreOne_fields r
    rw [hhs, hc, hk, hn]
    rw [if_pos (by simp)]
    rw [show (((some (50 : Nat)).getD 0 : Nat) : ℝ) = 50 by norm_num,
      show (((some (1 : Nat)).getD 0 : Nat) : ℝ) = 1 by norm_num, Real.sqrt_one,
      show (50 : ℝ) * 1 = ((50 : ℤ) : ℝ) by norm_num, jsRound_int 50]
  · intro r hz hn
    obtain ⟨_, _, hhs⟩ := scoreOne_fields r
    rw [hhs, hn]
    rw [if_neg (by rcases hz with h | h | h | h <;> rw [h] <;> simp)]

/-- Witness for C3: a concrete bucket with churn 100 and commits 4 gets
hotspot score 200. -/
theorem claim_C3_witness :
    (scoreOne { emptyReport ("a".data) ("A".data) ("C".data) with
        churn := some 100, commits := some 4 }).hotspotScore = some 200 :=
  claim_C3_hotspot_score_iff_and_formula.2.1
    { emptyReport ("a".data) ("A".data) ("C".data) with churn := some 100, commits := some 4 }
    rfl rfl rfl

-- ─── Orphan scanner lemmas ───────────────────────────────────────────────────

lemma hasPair_iff (syms : List Symbol) (f n : Str) :
    hasPair syms f n = true ↔ (f, n) ∈ pairsOf syms := by
  simp only [hasPair, pairsOf, List.any_eq_true, List.mem_map, Bool.and_eq_true, beq_iff_eq]
  constructor
  · rintro ⟨s, hs, h1, h2⟩
    exact ⟨s, hs, by rw [h1, h2]⟩
  · rintro ⟨s, hs, h⟩
    obtain ⟨h1, h2⟩ := Prod.mk.injEq .. ▸ h
    exact ⟨s, hs, h1, h2⟩

lemma pairsOf_append_orphan (syms : List Symbol) (f src : Str) (i len : Nat) (n : Str) :
    pairsOf (syms ++ [mkOrphan f src i len n]) = pairsOf syms ++ [(f, n)] := by
  simp [pairsOf, mkOrphan]

lemma orphanGo_pairs (f src : Str) :
    ∀ (ms : List (Nat × Nat × Str)) (syms : List Symbol) (g n' : Str),
    (g, n') ∈ pairsOf (orphanGo f src ms syms) ↔
      ((g, n') ∈ pairsOf syms ∨ (g = f ∧ n' ∈ ms.map (fun m => m.2.2))) := by
  intro ms
  induction ms with
  | nil =>
    intro syms g n'
    simp [orphanGo]
  | cons m ms ih =>
    obtain ⟨i, len, n⟩ := m
    intro syms g n'
    simp only [orphanGo]
    by_cases h : hasPair syms f n = true
    · rw [if_pos h]
      rw [ih]
      have hmem : (f, n) ∈ pairsOf syms := (hasPair_iff syms f n).mp h
      simp only [List.map_cons, List.mem_cons]
      constructor
      · rintro (h1 | ⟨h1, h2⟩)
        · exact Or.inl h1
        · exact Or.inr ⟨h1, Or.inr h2⟩
      · rintro (h1 | ⟨h1, h2 | h2⟩)
        · exact Or.inl h1
        · subst h1
          subst h2
          exact Or.inl hmem
        · exact Or.inr ⟨h1, h2⟩
    · rw [if_neg h]
      rw [ih]
      rw [pairsOf_append_orphan]
      simp only [List.mem_append, List.mem_singleton, List.map_cons, List.mem_cons,
        Prod.mk.injEq]
      tauto

lemma orphanGo_shape (f src : Str) :
    ∀ (ms : List (Nat × Nat × Str)) (syms : List Symbol) (a : Symbol),
    a ∈ orphanGo f src ms syms →
    a ∈ syms ∨ ∃ i len n, (i, len, n) ∈ ms ∧ a = mkOrphan f src i len n := by
  intro ms
  induction ms with
  | nil =>
    intro syms a ha
    exact Or.inl ha
  | cons m ms ih =>
    obtain ⟨i, len, n⟩ := m
    intro syms a ha
    simp only [orphanGo] at ha
    by_cases h : hasPair syms f n = true
    · rw [if_pos h] at ha
      rcases ih syms a ha with h1 | ⟨i', len', n', hm, he⟩
      · exact Or.inl h1
      · exact Or.inr ⟨i', len', n', List.mem_cons_of_mem _ hm, he⟩
    · rw [if_neg h] at ha
      rcases ih _ a ha with h1 | ⟨i', len', n', hm, he⟩
      · rcases List.mem_append.mp h1 with h2 | h2
        · exact Or.inl h2
        · refine Or.inr ⟨i, len, n, List.mem_cons_self _ _, ?_⟩
          simpa using h2
      · exact Or.inr ⟨i', len', n', List.mem_cons_of_mem _ hm, he⟩

lemma orphanGo_grow (f src : Str) :
    ∀ (ms : List (Nat × Nat × Str)) (syms : List Symbol),
    syms <+: orphanGo f src ms syms := by
  intro ms
  induction ms with
  | nil =>
    intro syms
    exact List.prefix_refl syms
  | cons m ms ih =>
    obtain ⟨i, len, n⟩ := m
    intro syms
    simp only [orphanGo]
    by_cases h : hasPair syms f n = true
    · rw [if_pos h]
      exact ih syms
    · rw [if_neg h]
      exact (List.prefix_append syms _).trans (ih _)

lemma orphanGo_count (f src : Str) :
    ∀ (ms : List (Nat × Nat × Str)) (syms : List Symbol) (pr : Str × Str),
    ((pairsOf syms).count pr ≠ 0 →
      (pairsOf (orphanGo f src ms syms)).count pr = (pairsOf syms).count pr)
    ∧ ((pairsOf syms).count pr = 0 →
      (pairsOf (orphanGo f src ms syms)).count pr ≤ 1) := by
  intro ms
  induction ms with
  | nil =>
    intro syms pr
    constructor
    · intro _
      rfl
    · intro h
      simp [orphanGo, h]
  | cons m ms ih =>
    obtain ⟨i, len, n⟩ := m
    intro syms pr
    simp only [orphanGo]
    by_cases h : hasPair syms f n = true
    · rw [if_pos h]
      exact ih syms pr
    · rw [if_neg h]
      have hnotmem : (f, n) ∉ pairsOf syms := by
        intro hc
        exact h ((hasPair_iff syms f n).mpr hc)
      have hcount : ∀ q : Str × Str,
          (pairsOf (syms ++ [mkOrphan f src i len n])).count q =
            (pairsOf syms).count q + (if q = (f, n) then 1 else 0) := by
        intro q
        rw [pairsOf_append_orphan, List.count_append]
        by_cases hq : q = (f, n)
        · rw [if_pos hq, hq]
          simp
        · rw [if_neg hq]
          simp [List.count_singleton, hq]
      constructor
      · intro hne
        have hprne : pr ≠ (f, n) := by
          intro hc
          subst hc
          exact hne (List.count_eq_zero.mpr hnotmem)
        have h1 : (pairsOf (syms ++ [mkOrphan f src i len n])).count pr = (pairsOf syms).count pr := by
          rw [hcount pr, if_neg hprne]
          omega
        rw [(ih _ pr).1 (by rw [h1]; exact hne), h1]
      · intro hz
        by_cases hpr : pr = (f, n)
        · have h1 : (pairsOf (syms ++ [mkOrphan f src i len n])).count pr = 1 := by
            rw [hcount pr, if_pos hpr, hz]
          rw [(ih _ pr).1 (by rw [h1]; omega), h1]
        · have h1 : (pairsOf (syms ++ [mkOrphan f src i len n])).count pr = 0 := by
            rw [hcount pr, if_neg hpr, hz]
          exact (ih _ pr).2 h1

lemma addOrphans_pairs (readF : Str → Option Str) (syms : List Symbol) (fi g n' : Str) :
    (g, n') ∈ pairsOf (addOrphans readF syms fi) ↔
      ((g, n') ∈ pairsOf syms ∨
        (g = fi ∧ ∃ src, readF fi = some src ∧ n' ∈ (scanFile src).map (fun m => m.2.2))) := by
  cases hr : readF fi with
  | none =>
    simp only [addOrphans, hr]
    constructor
    · intro h
      exact Or.inl h
    · rintro (h | ⟨_, src, hsrc, _⟩)
      · exact h
      · exact absurd hsrc (by simp)
  | some src =>
    simp only [addOrphans, hr]
    rw [orphanGo_pairs]
    constructor
    · rintro (h | ⟨h1, h2⟩)
      · exact Or.inl h
      · exact Or.inr ⟨h1, src, rfl, h2⟩
    · rintro (h | ⟨h1, src', hsrc', h2⟩)
      · exact Or.inl h
      · refine Or.inr ⟨h1, ?_⟩
        obtain rfl : src = src' := by
          simpa using hsrc'
        exact h2

lemma addOrphans_shape (readF : Str → Option Str) (syms : List Symbol) (fi : Str)
    (a : Symbol) (ha : a ∈ addOrphans readF syms fi) :
    a ∈ syms ∨ ∃ src i len n, readF fi = some src ∧ (i, len, n) ∈ scanFile src ∧
      a = mkOrphan fi src i len n := by
  cases hr : readF fi with
  | none =>
    rw [addOrphans, hr] at ha
    exact Or.inl ha
  | some src =>
    rw [addOrphans, hr] at ha
    rcases orphanGo_shape fi src (scanFile src) syms a ha with h | ⟨i, len, n, hm, he⟩
    · exact Or.inl h
    · exact Or.inr ⟨src, i, len, n, rfl, hm, he⟩

lemma addOrphans_grow (readF : Str → Option Str) (syms : List Symbol) (fi : Str) :
    syms <+: addOrphans readF syms fi := by
  cases hr : readF fi with
  | none =>
    rw [addOrphans, hr]
  | some src =>
    rw [addOrphans, hr]
    exact orphanGo_grow fi src (scanFile src) syms

lemma addOrphans_count (readF : Str → Option Str) (syms : List Symbol) (fi : Str)
    (pr : Str × Str) :
    ((pairsOf syms).count pr ≠ 0 →
      (pairsOf (addOrphans readF syms fi)).count pr = (pairsOf syms).count pr)
    ∧ ((pairsOf syms).count pr = 0 →
      (pairsOf (addOrphans readF syms fi)).count pr ≤ 1) := by
  cases hr : readF fi with
  | none =>
    rw [addOrphans, hr]
    constructor
    · intro _
      rfl
    · intro h
      rw [h]
      omega
  | some src =>
    rw [addOrphans, hr]
    exact orphanGo_count fi src (scanFile src) syms pr

lemma orphanStage_pairs (readF : Str → Option Str) :
    ∀ (files : List Str) (syms : List Symbol) (g n' : Str),
    (g, n') ∈ pairsOf (orphanStage readF files syms) ↔
      ((g, n') ∈ pairsOf syms ∨
        (g ∈ files ∧ ∃ src, readF g = some src ∧ n' ∈ (scanFile src).map (fun m => m.2.2))) := by
  intro files
  induction files with
  | nil =>
    intro syms g n'
    simp [orphanStage]
  | cons fi fs ih =>
    intro syms g n'
    show (g, n') ∈ pairsOf (orphanStage readF fs (addOrphans readF syms fi)) ↔ _
    rw [ih]
    rw [addOrphans_pairs]
    simp only [List.mem_cons]
    constructor
    · rintro ((h | ⟨h1, hsrc⟩) | ⟨h1, hsrc⟩)
      · exact Or.inl h
      · subst h1
        exact Or.inr ⟨Or.inl rfl, hsrc⟩
      · exact Or.inr ⟨Or.inr h1, hsrc⟩
    · rintro (h | ⟨h1 | h1, hsrc⟩)
      · exact Or.inl (Or.inl h)
      · subst h1
        exact Or.inl (Or.inr ⟨rfl, hsrc⟩)
      · exact Or.inr ⟨h1, hsrc⟩

lemma orphanStage_shape (readF : Str → Option Str) :
    ∀ (files : List Str) (syms : List Symbol) (a : Symbol),
    a ∈ orphanStage readF files syms →
    a ∈ syms ∨ (a.kind = SymKind.func ∧ a.file ∈ files ∧
      ∃ src i len, readF a.file = some src ∧ (i, len, a.name) ∈ scanFile src ∧
        a.line = countNl (src.take i) + 1) := by
  intro files
  induction files with
  | nil =>
    intro syms a ha
    exact Or.inl ha
  | cons fi fs ih =>
    intro syms a ha
    rcases ih (addOrphans readF syms fi) a ha with h | ⟨hk, hf, src, i, len, hsrc, hm, hl⟩
    · rcases addOrphans_shape readF syms fi a h with h1 | ⟨src, i, len, n, hr, hm, he⟩
      · exact Or.inl h1
      · subst he
        refine Or.inr ⟨rfl, List.mem_cons_self _ _, src, i, len, ?_, ?_, rfl⟩
        · exact hr
        · exact hm
    · exact Or.inr ⟨hk, List.mem_cons_of_mem _ hf, src, i, len, hsrc, hm, hl⟩

lemma orphanStage_grow (readF : Str → Option Str) :
    ∀ (files : List Str) (syms : List Symbol), syms <+: orphanStage readF files syms := by
  intro files
  induction files with
  | nil =>
    intro syms
    exact List.prefix_refl syms
  | cons fi fs ih =>
    intro syms
    exact (addOrphans_grow readF syms fi).trans (ih (addOrphans readF syms fi))

lemma orphanStage_count (readF : Str → Option Str) :
    ∀ (files : List Str) (syms : List Symbol) (pr : Str × Str),
    ((pairsOf syms).count pr ≠ 0 →
      (pairsOf (orphanStage readF files syms)).count pr = (pairsOf syms).count pr)
    ∧ ((pairsOf syms).count pr = 0 →
      (pairsOf (orphanStage readF files syms)).count pr ≤ 1) := by
  intro files
  induction files with
  | nil =>
    intro syms pr
    constructor
    · intro _
      rfl
    · intro h
      rw [show orphanStage readF [] syms = syms from rfl, h]
      omega
  | cons fi fs ih =>
    intro syms pr
    have hadd := addOrphans_count readF syms fi pr
    have hrest := ih (addOrphans readF syms fi) pr
    constructor
    · intro hne
      have h1 := hadd.1 hne
      rw [show orphanStage readF (fi :: fs) syms =
        orphanStage readF fs (addOrphans readF syms fi) from rfl]
      rw [hrest.1 (by rw [h1]; exact hne), h1]
    · intro hz
      rw [show orphanStage readF (fi :: fs) syms =
        orphanStage readF fs (addOrphans readF syms fi) from rfl]
      have h1 := hadd.2 hz
      rcases Nat.lt_or_ge ((pairsOf (addOrphans readF syms fi)).count pr) 1 with h2 | h2
      · exact hrest.2 (by omega)
      · have h3 : (pairsOf (addOrphans readF syms fi)).count pr = 1 := by omega
        rw [hrest.1 (by omega), h3]

-- ─── Claim theorems: orphan scanner ──────────────────────────────────────────

/-- C6: the orphan scanner only appends symbols; every appended symbol is a
function-kind symbol for an `export [default] const|function Capitalized`
match in a scanned component file, with 1-based line number one plus the
newline count before the match offset; the (file, name) pairs after
scanning are exactly the original pairs plus the matched pairs; the scanner
introduces no duplicate pair; and concretely a missed `Banner` component
yields exactly one function symbol, none when `Banner` was already
captured. -/
theorem claim_C6_orphan_scanner_recovery :
    (∀ (readF : Str → Option Str) (files : List Str) (syms : List Symbol),
      syms <+: orphanStage readF files syms
      ∧ (∀ a ∈ orphanStage readF files syms, a ∈ syms ∨
          (a.kind = SymKind.func ∧ a.file ∈ files ∧
            ∃ src i len, readF a.file = some src ∧ (i, len, a.name) ∈ scanFile src ∧
              a.line = countNl (src.take i) + 1))
      ∧ (∀ g n' : Str, (g, n') ∈ pairsOf (orphanStage readF files syms) ↔
          ((g, n') ∈ pairsOf syms ∨ (g ∈ files ∧ ∃ src, readF g = some src ∧
            n' ∈ (scanFile src).map (fun m => m.2.2))))
      ∧ (∀ pr : Str × Str,
          ((pairsOf syms).count pr ≠ 0 →
            (pairsOf (orphanStage readF files syms)).count pr = (pairsOf syms).count pr)
          ∧ ((pairsOf syms).count pr = 0 →
            (pairsOf (orphanStage readF files syms)).count pr ≤ 1)))
    ∧ orphanStage bannerRead [("c.tsx".data)] [] = [bannerOrphan]
    ∧ bannerOrphan.kind = SymKind.func ∧ bannerOrphan.name = "Banner".data
      ∧ bannerOrphan.line = 1
    ∧ orphanStage bannerRead [("c.tsx".data)] [bannerConst] = [bannerConst] := by
  refine ⟨?_, by decide, by decide, by decide, by decide, by decide⟩
  intro readF files syms
  exact ⟨orphanStage_grow readF files syms,
    fun a ha => orphanStage_shape readF files syms a ha,
    fun g n' => orphanStage_pairs readF files syms g n',
    fun pr => orphanStage_count readF files syms pr⟩

/-- Witness for C6: the Banner pair appears after scanning the concrete
file, and with Banner already captured the pair count stays exactly 1. -/
theorem claim_C6_witness :
    (("c.tsx".data, "Banner".data) ∈ pairsOf (orphanStage bannerRead [("c.tsx".data)] []))
    ∧ (pairsOf (orphanStage bannerRead [("c.tsx".data)] [bannerConst])).count
        ("c.tsx".data, "Banner".data) = 1 :=
  ⟨((claim_C6_orphan_scanner_recovery.1 bannerRead [("c.tsx".data)] []).2.2.1
      ("c.tsx".data) ("Banner".data)).mpr
    (Or.inr ⟨by decide, bannerSrc, by decide, by decide⟩),
   (((claim_C6_orphan_scanner_recovery.1 bannerRead [("c.tsx".data)] [bannerConst]).2.2.2
      ("c.tsx".data, "Banner".data)).1 (by decide)).trans (by decide)⟩

end Census
